import Mathlib

/-!
Verification of the variance-analysis core of a glob-pattern engine
(`src/token/mod.rs`). The token data model and all per-kind analysis
functions are translated directly from the Rust source. The `variance`
submodule (`Variance`, the sequencing/disjunction combinators and the
invariant-prefix functions) is not part of the provided sources, so those
definitions are modelled from the specification (spec sections 3 and 4.1)
and are marked as such in their doc comments.
-/

namespace Wax

/-- `Boundedness` from the variance module: `Closed` or `Open` extent. -/
inductive Boundedness where
  | Closed
  | Open
deriving DecidableEq, Repr

/-- Modelled from the spec: combining boundedness across two variant sides of a
sequence is `Closed` only if both are `Closed`, otherwise `Open`. -/
def Boundedness.add : Boundedness → Boundedness → Boundedness
  | .Closed, .Closed => .Closed
  | _, _ => .Open

/-- `Variance<T>` from the variance module: `Invariant(T)` or
`Variant(Boundedness)`. -/
inductive Variance (T : Type) where
  | Invariant (value : T)
  | Variant (bound : Boundedness)
deriving DecidableEq, Repr

/-- `Variance::map_invariance`: maps the invariant value, leaving a variant
result untouched (as used by the per-domain `unit_variance` impls). -/
def Variance.mapInvariance {T U : Type} (f : T → U) : Variance T → Variance U
  | .Invariant t => .Invariant (f t)
  | .Variant b => .Variant b

/-- True exactly on `Invariant` values. -/
def Variance.isInvariant {T : Type} : Variance T → Bool
  | .Invariant _ => true
  | .Variant _ => false

/-- Modelled from the spec: sequencing (`+`) of variances. `Invariant`
values concatenate; if exactly one side is variant the result is that side;
two variant sides combine their boundedness. -/
def vadd {T : Type} (append : T → T → T) : Variance T → Variance T → Variance T
  | .Invariant a, .Invariant b => .Invariant (append a b)
  | .Invariant _, .Variant b => .Variant b
  | .Variant b, .Invariant _ => .Variant b
  | .Variant a, .Variant b => .Variant (a.add b)

/-- A value domain for the variance analysis: the textual-value domain and the
byte-size domain instantiate this. `ofLiteral` is the invariant a `Literal`
contributes, `ofSeparatorT` the one a `Separator` contributes, `ofArchChar`
the one an invariant class `Archetype` contributes; `repeatN` is the
multiplication used by exact-count repetition and `teq` the equality used by
disjunction. -/
structure VDomain (T : Type) where
  empty : T
  append : T → T → T
  repeatN : T → Nat → T
  ofLiteral : List Char → T
  ofSeparatorT : T
  ofArchChar : Char → T
  teq : T → T → Bool

/-- Modelled from the spec: conjunctive variance is a left fold of sequencing
over the sequence, seeded with `Invariant` of the empty identity. -/
def conjunctiveVariance {T : Type} (d : VDomain T) (vs : List (Variance T)) : Variance T :=
  vs.foldl (vadd d.append) (.Invariant d.empty)

/-- Modelled from the spec: binary disjunction step. Two equal invariants stay
invariant; any mismatch or variant side makes the result variant, with
boundedness `Closed` iff every side is `Closed`. -/
def disjOp {T : Type} (d : VDomain T) : Variance T → Variance T → Variance T
  | .Invariant a, .Invariant b => if d.teq a b then .Invariant a else .Variant .Closed
  | .Invariant _, .Variant b => .Variant b
  | .Variant b, .Invariant _ => .Variant b
  | .Variant a, .Variant b => .Variant (a.add b)

/-- Modelled from the spec: disjunctive variance over a list of branch
variances, folding the binary step from the first branch. The sources never
apply it to an empty family (classes and alternatives are parsed non-empty);
the empty case is fixed arbitrarily. -/
def disjunctiveVariance {T : Type} (d : VDomain T) : List (Variance T) → Variance T
  | [] => .Variant .Closed
  | v :: vs => vs.foldl (disjOp d) v

/-- `std::path::MAIN_SEPARATOR`, fixed to the Unix value. -/
def MAIN_SEPARATOR : Char := '/'

/-- Byte length of a string (`str::as_bytes().len()`), with text modelled as a
list of characters. -/
def byteLen (s : List Char) : Nat := (s.map Char.utf8Size).sum

/-- The textual-value domain (`InvariantText`): invariants are strings,
sequencing is concatenation. -/
def textDomain : VDomain (List Char) where
  empty := []
  append := fun a b => a ++ b
  repeatN := fun s n => (List.replicate n s).flatten
  ofLiteral := fun s => s
  ofSeparatorT := [MAIN_SEPARATOR]
  ofArchChar := fun c => [c]
  teq := fun a b => a == b

/-- The byte-size domain (`InvariantSize`): invariants are byte counts,
sequencing is addition. A literal contributes its byte length, a separator the
byte length of its text, and an invariant archetype is pessimistically counted
as four bytes (see `Archetype`'s size `unit_variance` in the source). -/
def sizeDomain : VDomain Nat where
  empty := 0
  append := fun a b => a + b
  repeatN := fun a n => a * n
  ofLiteral := byteLen
  ofSeparatorT := byteLen [MAIN_SEPARATOR]
  ofArchChar := fun _ => 4
  teq := fun a b => a == b

/-- The process-wide configuration, threaded explicitly: the
`PATHS_ARE_CASE_INSENSITIVE` switch and the character predicate behind
`StrExt::has_casing` (the latter lives outside the provided sources, so the
exact notion of a cased character is kept abstract as a field). -/
structure Config where
  pathsAreCaseInsensitive : Bool
  charHasCasing : Char → Bool

/-- Modelled from the spec: `StrExt::has_casing` holds when the text contains
a character with casing. -/
def hasCasing (cfg : Config) (s : List Char) : Bool := s.any cfg.charHasCasing

/-- `Evaluation` for `Wildcard::ZeroOrMore`. -/
inductive Evaluation where
  | Eager
  | Lazy
deriving DecidableEq, Repr

/-- `Wildcard`: `One`, `ZeroOrMore(Evaluation)`, or `Tree { has_root }`. -/
inductive Wildcard where
  | One
  | ZeroOrMore (eval : Evaluation)
  | Tree (hasRoot : Bool)
deriving DecidableEq, Repr

/-- `Archetype`: an atom of a character class. -/
inductive Archetype where
  | Character (c : Char)
  | Range (a b : Char)
deriving DecidableEq, Repr

/-- `Class { is_negated, archetypes }`. -/
structure Class where
  isNegated : Bool
  archetypes : List Archetype
deriving DecidableEq, Repr

/-- `Literal { text, is_case_insensitive }`. -/
structure Literal where
  text : List Char
  isCaseInsensitive : Bool
deriving DecidableEq, Repr

/-- `TokenKind`: the token tree. Annotations are opaque caller metadata
erased here (no analysed behaviour reads them); a `Repetition`'s fields are
inlined (`tokens`, `lower`, `step`). -/
inductive TokenKind where
  | Alternative (branches : List (List TokenKind))
  | Class (c : Class)
  | Literal (l : Literal)
  | Repetition (tokens : List TokenKind) (lower : Nat) (step : Option Nat)
  | Separator
  | Wildcard (w : Wildcard)

/-- `Archetype::domain_variance`. -/
def Archetype.domainVariance (cfg : Config) : Archetype → Variance Char
  | .Character x =>
    if cfg.pathsAreCaseInsensitive then .Variant .Closed else .Invariant x
  | .Range a b =>
    if a ≠ b ∨ cfg.pathsAreCaseInsensitive then .Variant .Closed else .Invariant a

/-- `Archetype`'s per-domain `unit_variance`: the domain variance with the
invariant character mapped into the domain (its text in the textual domain,
the constant 4 in the size domain, via the `ofArchChar` field). -/
def archetypeUnitVariance {T : Type} (d : VDomain T) (cfg : Config) (a : Archetype) : Variance T :=
  (a.domainVariance cfg).mapInvariance d.ofArchChar

/-- `Literal::has_variant_casing`. -/
def Literal.hasVariantCasing (cfg : Config) (l : Literal) : Bool :=
  (cfg.pathsAreCaseInsensitive != l.isCaseInsensitive) && hasCasing cfg l.text

/-- `Literal::domain_variance`. -/
def Literal.domainVariance (cfg : Config) (l : Literal) : Variance (List Char) :=
  if l.hasVariantCasing cfg then .Variant .Closed else .Invariant l.text

/-- `Literal`'s per-domain `unit_variance`: the domain variance with the
invariant text mapped into the domain (the text itself, or its byte length). -/
def literalUnitVariance {T : Type} (d : VDomain T) (cfg : Config) (l : Literal) : Variance T :=
  (l.domainVariance cfg).mapInvariance d.ofLiteral

/-- `Class`'s `unit_variance`: a negated class is always `Variant(Closed)`;
otherwise the disjunction over its archetypes. -/
def classUnitVariance {T : Type} (d : VDomain T) (cfg : Config) (c : Class) : Variance T :=
  if c.isNegated then .Variant .Closed
  else disjunctiveVariance d (c.archetypes.map (archetypeUnitVariance d cfg))

/-- `TokenKind::is_component_boundary`. -/
def TokenKind.isComponentBoundary : TokenKind → Bool
  | .Separator => true
  | .Wildcard (.Tree _) => true
  | _ => false

/-- True exactly on `Separator` tokens. -/
def TokenKind.isSeparator : TokenKind → Bool
  | .Separator => true
  | _ => false

/-- True exactly on a `Variant(Open)` variance. -/
def Variance.isVariantOpen {T : Type} : Variance T → Bool
  | .Variant .Open => true
  | _ => false

/-- The body of `Itertools::coalesce` holding the current item `cur`: the
closure receives `(cur, next)` and either merges them (continuing with the
merged item) or emits `cur` and continues with `next`. -/
def coalesceAux {T : Type} (cur : Bool × Variance T) :
    List (Bool × Variance T) → List (Bool × Variance T)
  | [] => [cur]
  | y :: rest =>
    if cur.1 && y.2.isVariantOpen then coalesceAux y rest
    else if cur.2.isVariantOpen && y.1 then coalesceAux cur rest
    else cur :: coalesceAux y rest

/-- The `Itertools::coalesce` step of `Repetition`'s `unit_variance`, acting
on each token's (is-separator, unit-variance) data: a separator adjacent to a
unit of open variance is absorbed into that unit. -/
def coalesceSeps {T : Type} : List (Bool × Variance T) → List (Bool × Variance T)
  | [] => []
  | x :: xs => coalesceAux x xs

mutual

/-- `TokenKind::unit_variance` (which each `Token` delegates to). Wildcards of
every kind report `Variant(Open)`; a repetition coalesces separators with
open-variance units before folding conjunctively, then multiplies by `lower`
when `step = 0` and otherwise adds `Variant(Open)`. -/
def unitVariance {T : Type} (d : VDomain T) (cfg : Config) : TokenKind → Variance T
  | .Alternative branches => disjunctiveVariance d (branchVariances d cfg branches)
  | .Class c => classUnitVariance d cfg c
  | .Literal l => literalUnitVariance d cfg l
  | .Repetition tokens lower step =>
    let variance :=
      conjunctiveVariance d ((coalesceSeps (pairVariances d cfg tokens)).map Prod.snd)
    match step with
    | some 0 => variance.mapInvariance (fun invariance => d.repeatN invariance lower)
    | some (_ + 1) => vadd d.append variance (.Variant .Open)
    | none => vadd d.append variance (.Variant .Open)
  | .Separator => .Invariant d.ofSeparatorT
  | .Wildcard _ => .Variant .Open

/-- Each token of a sequence paired with its separator flag and unit variance
(the data `Repetition`'s coalescing step inspects). -/
def pairVariances {T : Type} (d : VDomain T) (cfg : Config) :
    List TokenKind → List (Bool × Variance T)
  | [] => []
  | t :: ts => (t.isSeparator, unitVariance d cfg t) :: pairVariances d cfg ts

/-- The conjunctive variance of each branch of an `Alternative`. -/
def branchVariances {T : Type} (d : VDomain T) (cfg : Config) :
    List (List TokenKind) → List (Variance T)
  | [] => []
  | b :: bs =>
    conjunctiveVariance d ((pairVariances d cfg b).map Prod.snd) :: branchVariances d cfg bs

end

mutual

/-- `Token::has_token_with`: descends through `Alternative` branches and
`Repetition` children; every other kind is a leaf the predicate is applied
to. -/
def hasTokenWith (f : TokenKind → Bool) : TokenKind → Bool
  | .Alternative branches => hasTokenWithBranches f branches
  | .Repetition tokens _ _ => hasTokenWithList f tokens
  | k => f k

/-- `Repetition::has_token_with`: any child token has a matching leaf. -/
def hasTokenWithList (f : TokenKind → Bool) : List TokenKind → Bool
  | [] => false
  | t :: ts => hasTokenWith f t || hasTokenWithList f ts

/-- `Alternative::has_token_with`: any branch has a matching leaf. -/
def hasTokenWithBranches (f : TokenKind → Bool) : List (List TokenKind) → Bool
  | [] => false
  | b :: bs => hasTokenWithList f b || hasTokenWithBranches f bs

end

/-- `Repetition::has_component_boundary` over a token sequence. -/
def hasComponentBoundaryList (tokens : List TokenKind) : Bool :=
  hasTokenWithList TokenKind.isComponentBoundary tokens

mutual

/-- `TokenKind::depth`. -/
def TokenKind.depth : TokenKind → Boundedness
  | .Class _ => .Closed
  | .Literal _ => .Closed
  | .Separator => .Closed
  | .Wildcard .One => .Closed
  | .Wildcard (.ZeroOrMore _) => .Closed
  | .Alternative branches =>
    if depthOpenBranches branches then .Open else .Closed
  | .Repetition tokens lower step =>
    if (step.map (fun s => lower + s)).isNone && hasComponentBoundaryList tokens then .Open
    else .Closed
  | .Wildcard (.Tree _) => .Open
termination_by t => (sizeOf t, 0)

/-- `token.has_token_with(|t| t.depth().is_open())`. -/
def depthOpenTok : TokenKind → Bool
  | .Alternative branches => depthOpenBranches branches
  | .Repetition tokens _ _ => depthOpenList tokens
  | k => k.depth == .Open
termination_by t => (sizeOf t, 1)

/-- `depthOpenTok` over a token sequence. -/
def depthOpenList : List TokenKind → Bool
  | [] => false
  | t :: ts => depthOpenTok t || depthOpenList ts
termination_by ts => (sizeOf ts, 1)

/-- `depthOpenList` over alternative branches. -/
def depthOpenBranches : List (List TokenKind) → Bool
  | [] => false
  | b :: bs => depthOpenList b || depthOpenBranches bs
termination_by bs => (sizeOf bs, 1)

end

mutual

/-- `TokenKind::breadth`. -/
def TokenKind.breadth : TokenKind → Boundedness
  | .Class _ => .Closed
  | .Literal _ => .Closed
  | .Separator => .Closed
  | .Wildcard .One => .Closed
  | .Alternative branches =>
    if breadthOpenBranches branches then .Open else .Closed
  | .Repetition tokens _ _ =>
    if breadthOpenList tokens then .Open else .Closed
  | .Wildcard (.Tree _) => .Open
  | .Wildcard (.ZeroOrMore _) => .Open
termination_by t => (sizeOf t, 0)

/-- `token.has_token_with(|t| t.breadth().is_open())`. -/
def breadthOpenTok : TokenKind → Bool
  | .Alternative branches => breadthOpenBranches branches
  | .Repetition tokens _ _ => breadthOpenList tokens
  | k => k.breadth == .Open
termination_by t => (sizeOf t, 1)

/-- `breadthOpenTok` over a token sequence. -/
def breadthOpenList : List TokenKind → Bool
  | [] => false
  | t :: ts => breadthOpenTok t || breadthOpenList ts
termination_by ts => (sizeOf ts, 1)

/-- `breadthOpenList` over alternative branches. -/
def breadthOpenBranches : List (List TokenKind) → Bool
  | [] => false
  | b :: bs => breadthOpenList b || breadthOpenBranches bs
termination_by bs => (sizeOf bs, 1)

end

/-- `TokenKind::unroot`: clears the root flag of a `Tree` wildcard and leaves
every other kind unchanged (the source mutates in place and returns the old
flag; the returned flag is discarded by its one caller, `partition`). -/
def TokenKind.unroot : TokenKind → TokenKind
  | .Wildcard (.Tree _) => .Wildcard (.Tree false)
  | k => k

/-- `Tokenized`: the original expression text together with the root-level
token sequence. -/
structure Tokenized where
  expression : List Char
  tokens : List TokenKind

/-- Modelled from the spec: `variance::invariant_text_prefix_upper_bound`
returns the count of leading tokens fully consumed by the invariant-prefix
fold, that is the number of leading tokens up to (not including) the first
token whose own variance is `Variant`. -/
def invariantPrefixUpperBound (cfg : Config) (tokens : List TokenKind) : Nat :=
  (tokens.takeWhile (fun t => (unitVariance textDomain cfg t).isInvariant)).length

/-- Modelled from the spec: `variance::invariant_text_prefix` conjunctively
folds the textual domain left to right and returns everything accumulated up
to (not including) the first token whose own variance is `Variant`. -/
def invariantPrefixText (cfg : Config) (tokens : List TokenKind) : List Char :=
  match
    conjunctiveVariance textDomain
      ((tokens.takeWhile (fun t => (unitVariance textDomain cfg t).isInvariant)).map
        (unitVariance textDomain cfg))
  with
  | .Invariant s => s
  | .Variant _ => []

/-- `Tokenized::partition`: extracts the invariant text prefix, drains the
leading tokens it consumed, and unroots the new first token. -/
def Tokenized.partition (cfg : Config) (t : Tokenized) : List Char × Tokenized :=
  let prefixText := invariantPrefixText cfg t.tokens
  let drained := t.tokens.drop (invariantPrefixUpperBound cfg t.tokens)
  let unrooted :=
    match drained with
    | [] => []
    | k :: ks => k.unroot :: ks
  (prefixText, { expression := t.expression, tokens := unrooted })

/-- `std::ops::Bound<usize>`. -/
inductive RBound where
  | Included (n : Nat)
  | Excluded (n : Nat)
  | Unbounded
deriving DecidableEq, Repr

/-- A `RangeBounds<usize>` argument, reduced to its start and end bounds (the
only data `Repetition::new` reads from it). -/
structure RangeBoundsArg where
  startBound : RBound
  endBound : RBound
deriving DecidableEq, Repr

/-- The `lower` computed by `Repetition::new` from the start bound. -/
def computedLower (b : RangeBoundsArg) : Nat :=
  match b.startBound with
  | .Included lower => lower
  | .Excluded lower => lower + 1
  | .Unbounded => 0

/-- The `upper` computed by `Repetition::new` from the end bound. -/
def computedUpper (b : RangeBoundsArg) : Option Nat :=
  match b.endBound with
  | .Included upper => some upper
  | .Excluded upper => some (max upper 1 - 1)
  | .Unbounded => none

/-- `Repetition::new`: fails for a computed finite upper bound that is zero or
below `lower`, and otherwise builds the repetition with
`step = upper - lower` (or no step when unbounded). -/
def repetitionNew (tokens : List TokenKind) (b : RangeBoundsArg) : Option TokenKind :=
  let lower := computedLower b
  match computedUpper b with
  | some upper =>
    if upper ≠ 0 ∧ upper ≥ lower then
      some (.Repetition tokens lower (some (upper - lower)))
    else none
  | none => some (.Repetition tokens lower none)

/-- Dropping a while-prefix never lengthens a list (termination measure for
`componentsList`). -/
theorem dropWhileLengthLe {α : Type} (p : α → Bool) :
    (l : List α) → (l.dropWhile p).length ≤ l.length
  | [] => Nat.le_refl _
  | x :: xs => by
    rw [List.dropWhile_cons]
    split
    · exact Nat.le_succ_of_le (dropWhileLengthLe p xs)
    · exact Nat.le_refl _

/-- `components(tokens)`: the `batching` loop skips leading separators, emits
a lone `Tree` wildcard as its own component, and otherwise emits the first
token together with the run of following tokens up to (not including) the
next component boundary (`peeking_take_while` leaves the boundary token in
the iterator). -/
def componentsList : List TokenKind → List (List TokenKind)
  | [] => []
  | t :: ts =>
    match t with
    | .Separator => componentsList ts
    | .Wildcard (.Tree r) => [TokenKind.Wildcard (.Tree r)] :: componentsList ts
    | k =>
      (k :: ts.takeWhile (fun x => !x.isComponentBoundary)) ::
        componentsList (ts.dropWhile (fun x => !x.isComponentBoundary))
termination_by ts => ts.length
decreasing_by
  all_goals simp_wf
  all_goals first
    | omega
    | exact Nat.lt_succ_of_le (dropWhileLengthLe _ _)

/-! Lemmas about the variance algebra. -/

/-- A `Variant(Open)` right operand absorbs any sequencing. -/
theorem vaddOpenRight {T : Type} (app : T → T → T) (v : Variance T) :
    vadd app v (.Variant .Open) = .Variant .Open := by
  cases v with
  | Invariant a => rfl
  | Variant b => cases b <;> rfl

/-- A `Variant(Open)` left operand absorbs any sequencing. -/
theorem vaddOpenLeft {T : Type} (app : T → T → T) (v : Variance T) :
    vadd app (.Variant .Open) v = .Variant .Open := by
  cases v with
  | Invariant a => rfl
  | Variant b => cases b <;> rfl

/-- A conjunctive fold that has seen or will see a `Variant(Open)` unit
results in `Variant(Open)`. -/
theorem foldlVaddOpen {T : Type} (app : T → T → T) :
    ∀ (vs : List (Variance T)) (acc : Variance T),
      (acc = .Variant .Open ∨ (Variance.Variant .Open) ∈ vs) →
      vs.foldl (vadd app) acc = .Variant .Open
  | [], acc, h => by
    cases h with
    | inl h => simpa using h
    | inr h => exact absurd h (List.not_mem_nil _)
  | v :: vs, acc, h => by
    have step : vs.foldl (vadd app) (vadd app acc v) = .Variant .Open := by
      cases h with
      | inl h =>
        exact foldlVaddOpen app vs _ (Or.inl (h ▸ vaddOpenLeft app v))
      | inr h =>
        cases List.mem_cons.mp h with
        | inl hv => exact foldlVaddOpen app vs _ (Or.inl (hv ▸ vaddOpenRight app acc))
        | inr hv => exact foldlVaddOpen app vs _ (Or.inr hv)
    simpa using step

/-- A `Variant(Open)` left operand absorbs the disjunction step. -/
theorem disjOpOpenLeft {T : Type} (d : VDomain T) (v : Variance T) :
    disjOp d (.Variant .Open) v = .Variant .Open := by
  cases v with
  | Invariant a => rfl
  | Variant b => cases b <;> rfl

/-- A `Variant(Open)` right operand absorbs the disjunction step. -/
theorem disjOpOpenRight {T : Type} (d : VDomain T) (v : Variance T) :
    disjOp d v (.Variant .Open) = .Variant .Open := by
  cases v with
  | Invariant a => rfl
  | Variant b => cases b <;> rfl

/-- A disjunctive fold that has seen or will see a `Variant(Open)` branch
results in `Variant(Open)`. -/
theorem foldlDisjOpen {T : Type} (d : VDomain T) :
    ∀ (vs : List (Variance T)) (acc : Variance T),
      (acc = .Variant .Open ∨ (Variance.Variant .Open) ∈ vs) →
      vs.foldl (disjOp d) acc = .Variant .Open
  | [], acc, h => by
    cases h with
    | inl h => simpa using h
    | inr h => exact absurd h (List.not_mem_nil _)
  | v :: vs, acc, h => by
    have step : vs.foldl (disjOp d) (disjOp d acc v) = .Variant .Open := by
      cases h with
      | inl h =>
        exact foldlDisjOpen d vs _ (Or.inl (h ▸ disjOpOpenLeft d v))
      | inr h =>
        cases List.mem_cons.mp h with
        | inl hv => exact foldlDisjOpen d vs _ (Or.inl (hv ▸ disjOpOpenRight d acc))
        | inr hv => exact foldlDisjOpen d vs _ (Or.inr hv)
    simpa using step

/-- A branch family containing a `Variant(Open)` branch is disjunctively
`Variant(Open)`. -/
theorem disjunctiveVarianceOpen {T : Type} (d : VDomain T) (vs : List (Variance T))
    (h : (Variance.Variant .Open) ∈ vs) : disjunctiveVariance d vs = .Variant .Open := by
  cases vs with
  | nil => exact absurd h (List.not_mem_nil _)
  | cons v rest =>
    cases List.mem_cons.mp h with
    | inl hv => exact foldlDisjOpen d rest v (Or.inl hv.symm)
    | inr hv => exact foldlDisjOpen d rest v (Or.inr hv)

/-- `isVariantOpen` characterizes `Variant(Open)`. -/
theorem isVariantOpenEq {T : Type} (v : Variance T) (h : v.isVariantOpen = true) :
    v = .Variant .Open := by
  cases v with
  | Invariant a => exact absurd h (by simp [Variance.isVariantOpen])
  | Variant b => cases b with
    | Closed => exact absurd h (by simp [Variance.isVariantOpen])
    | Open => rfl

/-- The coalescing step of `Repetition`'s `unit_variance` never changes the
conjunctive fold: every merge drops an element adjacent to a `Variant(Open)`
unit, and such a fold is `Variant(Open)` regardless. -/
theorem coalesceAuxFoldl {T : Type} (app : T → T → T) :
    ∀ (xs : List (Bool × Variance T)) (cur : Bool × Variance T) (acc : Variance T),
      ((coalesceAux cur xs).map Prod.snd).foldl (vadd app) acc
        = ((cur :: xs).map Prod.snd).foldl (vadd app) acc
  | [], cur, acc => rfl
  | y :: rest, cur, acc => by
    by_cases h1 : cur.1 && y.2.isVariantOpen
    · have hy : y.2 = .Variant .Open := isVariantOpenEq _ (by
        rw [Bool.and_eq_true] at h1
        exact h1.2)
      rw [coalesceAux, if_pos h1, coalesceAuxFoldl app rest y acc]
      simp only [List.map_cons, List.foldl_cons]
      rw [hy, vaddOpenRight, vaddOpenRight]
    · by_cases h2 : cur.2.isVariantOpen && y.1
      · have hc : cur.2 = .Variant .Open := isVariantOpenEq _ (by
          rw [Bool.and_eq_true] at h2
          exact h2.1)
        rw [coalesceAux, if_neg h1, if_pos h2, coalesceAuxFoldl app rest cur acc]
        simp only [List.map_cons, List.foldl_cons]
        rw [hc, vaddOpenRight, vaddOpenLeft]
      · rw [coalesceAux, if_neg h1, if_neg h2]
        simp only [List.map_cons, List.foldl_cons]
        exact coalesceAuxFoldl app rest y (vadd app acc cur.2)

/-- The full coalescing pass preserves conjunctive variance. -/
theorem coalesceSepsConj {T : Type} (d : VDomain T) (ps : List (Bool × Variance T)) :
    conjunctiveVariance d ((coalesceSeps ps).map Prod.snd)
      = conjunctiveVariance d (ps.map Prod.snd) := by
  cases ps with
  | nil => rfl
  | cons x xs => exact coalesceAuxFoldl d.append xs x _

/-- The separator flag and variance pairs are the pointwise data of the
sequence. -/
theorem pairVariancesMapSnd {T : Type} (d : VDomain T) (cfg : Config) :
    ∀ ts : List TokenKind,
      (pairVariances d cfg ts).map Prod.snd = ts.map (unitVariance d cfg)
  | [] => rfl
  | t :: ts => by
    simp only [pairVariances, List.map_cons, List.map]
    rw [pairVariancesMapSnd d cfg ts]

/-- `branchVariances` is the pointwise conjunctive variance of each branch. -/
theorem branchVariancesEq {T : Type} (d : VDomain T) (cfg : Config) :
    ∀ bs : List (List TokenKind),
      branchVariances d cfg bs
        = bs.map (fun b => conjunctiveVariance d (b.map (unitVariance d cfg)))
  | [] => rfl
  | b :: bs => by
    simp only [branchVariances, List.map_cons]
    rw [pairVariancesMapSnd d cfg b, branchVariancesEq d cfg bs]

/-- When the coalesced conjunctive variance of a repetition's children is
`Variant(Open)`, the repetition's unit variance is `Variant(Open)` for every
bound shape. -/
theorem unitVarianceRepetitionOpen {T : Type} (d : VDomain T) (cfg : Config)
    (ts : List TokenKind) (lower : Nat) (step : Option Nat)
    (h : conjunctiveVariance d ((coalesceSeps (pairVariances d cfg ts)).map Prod.snd)
          = .Variant .Open) :
    unitVariance d cfg (.Repetition ts lower step) = .Variant .Open := by
  rcases step with _ | n
  · show vadd d.append
      (conjunctiveVariance d ((coalesceSeps (pairVariances d cfg ts)).map Prod.snd))
      (.Variant .Open) = .Variant .Open
    rw [h]
    rfl
  · rcases n with _ | m
    · show Variance.mapInvariance (fun i => d.repeatN i lower)
        (conjunctiveVariance d ((coalesceSeps (pairVariances d cfg ts)).map Prod.snd))
          = .Variant .Open
      rw [h]
      rfl
    · show vadd d.append
        (conjunctiveVariance d ((coalesceSeps (pairVariances d cfg ts)).map Prod.snd))
        (.Variant .Open) = .Variant .Open
      rw [h]
      rfl

/-- `breadthOpenTok` tests exactly whether the token's breadth is `Open` (the
leaf predicate applied through the traversal agrees with `breadth` on every
kind). -/
theorem breadthOpenTokEq : ∀ t : TokenKind, breadthOpenTok t = (t.breadth == .Open)
  | .Alternative bs => by
    simp only [breadthOpenTok, TokenKind.breadth]
    cases hx : breadthOpenBranches bs <;> simp [hx]
  | .Repetition ts lower step => by
    simp only [breadthOpenTok, TokenKind.breadth]
    cases hx : breadthOpenList ts <;> simp [hx]
  | .Class c => by simp [breadthOpenTok]
  | .Literal l => by simp [breadthOpenTok]
  | .Separator => by simp [breadthOpenTok]
  | .Wildcard .One => by simp [breadthOpenTok]
  | .Wildcard (.ZeroOrMore e) => by simp [breadthOpenTok]
  | .Wildcard (.Tree r) => by simp [breadthOpenTok]

mutual

/-- A token some reachable leaf of which is breadth-open has unit variance
`Variant(Open)` in every value domain. -/
theorem breadthOpenTokVariance {T : Type} (d : VDomain T) (cfg : Config) :
    ∀ t : TokenKind, breadthOpenTok t = true → unitVariance d cfg t = .Variant .Open
  | .Alternative bs, h => by
    simp only [breadthOpenTok] at h
    have hmem := breadthOpenBranchesVariance d cfg bs h
    show disjunctiveVariance d (branchVariances d cfg bs) = .Variant .Open
    exact disjunctiveVarianceOpen d _ hmem
  | .Repetition ts lower step, h => by
    simp only [breadthOpenTok] at h
    have hmem := breadthOpenListVariance d cfg ts h
    refine unitVarianceRepetitionOpen d cfg ts lower step ?_
    rw [coalesceSepsConj, pairVariancesMapSnd]
    exact foldlVaddOpen d.append _ _ (Or.inr hmem)
  | .Class c, h => by simp [breadthOpenTok, TokenKind.breadth] at h
  | .Literal l, h => by simp [breadthOpenTok, TokenKind.breadth] at h
  | .Separator, h => by simp [breadthOpenTok, TokenKind.breadth] at h
  | .Wildcard .One, h => by simp [breadthOpenTok, TokenKind.breadth] at h
  | .Wildcard (.ZeroOrMore e), h => rfl
  | .Wildcard (.Tree r), h => rfl

/-- A sequence some reachable leaf of which is breadth-open contains a
`Variant(Open)` unit variance. -/
theorem breadthOpenListVariance {T : Type} (d : VDomain T) (cfg : Config) :
    ∀ ts : List TokenKind, breadthOpenList ts = true →
      (Variance.Variant .Open) ∈ ts.map (unitVariance d cfg)
  | [], h => by simp [breadthOpenList] at h
  | t :: ts, h => by
    simp only [breadthOpenList, Bool.or_eq_true] at h
    rw [List.map_cons]
    cases h with
    | inl h1 =>
      rw [breadthOpenTokVariance d cfg t h1]
      exact List.mem_cons_self _ _
    | inr h2 => exact List.mem_cons_of_mem _ (breadthOpenListVariance d cfg ts h2)

/-- A branch family some reachable leaf of which is breadth-open has a
`Variant(Open)` branch variance. -/
theorem breadthOpenBranchesVariance {T : Type} (d : VDomain T) (cfg : Config) :
    ∀ bs : List (List TokenKind), breadthOpenBranches bs = true →
      (Variance.Variant .Open) ∈ branchVariances d cfg bs
  | [], h => by simp [breadthOpenBranches] at h
  | b :: bs, h => by
    simp only [breadthOpenBranches, Bool.or_eq_true] at h
    simp only [branchVariances]
    cases h with
    | inl h1 =>
      have hmem := breadthOpenListVariance d cfg b h1
      have hconj : conjunctiveVariance d ((pairVariances d cfg b).map Prod.snd)
          = .Variant .Open := by
        rw [pairVariancesMapSnd]
        exact foldlVaddOpen d.append _ _ (Or.inr hmem)
      rw [hconj]
      exact List.mem_cons_self _ _
    | inr h2 => exact List.mem_cons_of_mem _ (breadthOpenBranchesVariance d cfg bs h2)

end

/-- A breadth-open token has unit variance `Variant(Open)` in every value
domain. -/
theorem breadthOpenVariance {T : Type} (d : VDomain T) (cfg : Config) (t : TokenKind)
    (h : t.breadth = .Open) : unitVariance d cfg t = .Variant .Open :=
  breadthOpenTokVariance d cfg t (by rw [breadthOpenTokEq, h]; rfl)

/-- Modelled from the spec (the claim under scrutiny, section 4.3): the
coalescing step described by the spec merges an immediately adjacent
`Separator` and breadth-Open unit into the open unit. Iterator body holding
the current item. -/
def coalesceSpecAux (cur : TokenKind) : List TokenKind → List TokenKind
  | [] => [cur]
  | y :: rest =>
    if cur.isSeparator && (y.breadth == .Open) then coalesceSpecAux y rest
    else if (cur.breadth == .Open) && y.isSeparator then coalesceSpecAux cur rest
    else cur :: coalesceSpecAux y rest

/-- Modelled from the spec (section 4.3): the full spec-described coalescing
pass over a repetition's children. -/
def coalesceSpecTokens : List TokenKind → List TokenKind
  | [] => []
  | x :: xs => coalesceSpecAux x xs

/-- The spec-described (breadth-based) coalescing never changes the
conjunctive fold either: it only merges next to a breadth-open unit, whose
unit variance is `Variant(Open)`, which dominates the fold. -/
theorem coalesceSpecAuxFoldl {T : Type} (d : VDomain T) (cfg : Config) :
    ∀ (xs : List TokenKind) (cur : TokenKind) (acc : Variance T),
      ((coalesceSpecAux cur xs).map (unitVariance d cfg)).foldl (vadd d.append) acc
        = ((cur :: xs).map (unitVariance d cfg)).foldl (vadd d.append) acc
  | [], cur, acc => rfl
  | y :: rest, cur, acc => by
    by_cases h1 : cur.isSeparator && (y.breadth == .Open)
    · have hy : unitVariance d cfg y = .Variant .Open := by
        rw [Bool.and_eq_true] at h1
        exact breadthOpenVariance d cfg y (by simpa using h1.2)
      rw [coalesceSpecAux, if_pos h1, coalesceSpecAuxFoldl d cfg rest y acc]
      simp only [List.map_cons, List.foldl_cons]
      rw [hy, vaddOpenRight, vaddOpenRight]
    · by_cases h2 : (cur.breadth == .Open) && y.isSeparator
      · have hc : unitVariance d cfg cur = .Variant .Open := by
          rw [Bool.and_eq_true] at h2
          exact breadthOpenVariance d cfg cur (by simpa using h2.1)
        rw [coalesceSpecAux, if_neg h1, if_pos h2, coalesceSpecAuxFoldl d cfg rest cur acc]
        simp only [List.map_cons, List.foldl_cons]
        rw [hc, vaddOpenRight, vaddOpenLeft]
      · rw [coalesceSpecAux, if_neg h1, if_neg h2]
        simp only [List.map_cons, List.foldl_cons]
        exact coalesceSpecAuxFoldl d cfg rest y _

/-- The spec-described coalescing pass preserves conjunctive variance. -/
theorem coalesceSpecConj {T : Type} (d : VDomain T) (cfg : Config) (ts : List TokenKind) :
    conjunctiveVariance d ((coalesceSpecTokens ts).map (unitVariance d cfg))
      = conjunctiveVariance d (ts.map (unitVariance d cfg)) := by
  cases ts with
  | nil => rfl
  | cons x xs => exact coalesceSpecAuxFoldl d cfg xs x _

/-- Modelled from the spec (sections 4.2 and 4.3): a `Repetition`'s unit
variance as the spec words it, with the spec-described separator/breadth-open
coalescing applied to the children before the conjunctive fold, then the
multiplicative or open tail depending on `step`. -/
def repetitionUnitVarianceSpec {T : Type} (d : VDomain T) (cfg : Config)
    (ts : List TokenKind) (lower : Nat) (step : Option Nat) : Variance T :=
  let variance := conjunctiveVariance d ((coalesceSpecTokens ts).map (unitVariance d cfg))
  match step with
  | some 0 => variance.mapInvariance (fun invariance => d.repeatN invariance lower)
  | some (_ + 1) => vadd d.append variance (.Variant .Open)
  | none => vadd d.append variance (.Variant .Open)

/-- `unit_variance` at a `Repetition`, with the code's coalescing pass exposed
(a restatement of the defining equation, usable for rewriting). -/
theorem unitVarianceRepetitionEq {T : Type} (d : VDomain T) (cfg : Config)
    (ts : List TokenKind) (lower : Nat) (step : Option Nat) :
    unitVariance d cfg (.Repetition ts lower step)
      = (let variance :=
          conjunctiveVariance d ((coalesceSeps (pairVariances d cfg ts)).map Prod.snd)
         match step with
         | some 0 => variance.mapInvariance (fun invariance => d.repeatN invariance lower)
         | some (_ + 1) => vadd d.append variance (.Variant .Open)
         | none => vadd d.append variance (.Variant .Open)) := by
  rcases step with _ | (_ | m) <;> rfl

/-! Helpers for the partitioning and component claims. -/

/-- True exactly on `Tree` wildcards. -/
def TokenKind.isTree : TokenKind → Bool
  | .Wildcard (.Tree _) => true
  | _ => false

/-- True exactly on a `Tree` wildcard whose `has_root` flag is set. -/
def isRootedTree : TokenKind → Bool
  | .Wildcard (.Tree r) => r
  | _ => false

/-- After `unroot`, no token is a rooted `Tree` wildcard. -/
theorem unrootNotRooted (m : TokenKind) : isRootedTree m.unroot = false := by
  cases m with
  | Wildcard w => cases w <;> rfl
  | Alternative bs => rfl
  | Class c => rfl
  | Literal l => rfl
  | Repetition ts lower step => rfl
  | Separator => rfl

/-- `unroot` leaves every non-`Tree` token unchanged. -/
theorem unrootNonTree (m : TokenKind) (h : m.isTree = false) : m.unroot = m := by
  cases m with
  | Wildcard w =>
    cases w with
    | Tree r => exact absurd h (by simp [TokenKind.isTree])
    | One => rfl
    | ZeroOrMore e => rfl
  | Alternative bs => rfl
  | Class c => rfl
  | Literal l => rfl
  | Repetition ts lower step => rfl
  | Separator => rfl

/-- A non-boundary token is not a separator. -/
theorem notBoundaryNotSep (t : TokenKind) (h : t.isComponentBoundary = false) :
    t.isSeparator = false := by
  cases t with
  | Separator => exact absurd h (by simp [TokenKind.isComponentBoundary])
  | Alternative bs => rfl
  | Class c => rfl
  | Literal l => rfl
  | Repetition ts lower step => rfl
  | Wildcard w => rfl

/-- A non-boundary token is not a `Tree` wildcard. -/
theorem notBoundaryNotTree (t : TokenKind) (h : t.isComponentBoundary = false) (w : Bool) :
    t ≠ .Wildcard (.Tree w) := by
  intro he
  subst he
  exact absurd h (by simp [TokenKind.isComponentBoundary])

/-- The non-separator filter distributes over the boundary-bounded run and its
remainder. -/
theorem takeWhileFilterAppend :
    ∀ ts : List TokenKind,
      ts.takeWhile (fun x => !x.isComponentBoundary)
        ++ (ts.dropWhile (fun x => !x.isComponentBoundary)).filter (fun x => !x.isSeparator)
      = ts.filter (fun x => !x.isSeparator)
  | [] => rfl
  | x :: xs => by
    by_cases hb : (!x.isComponentBoundary) = true
    · have hs : (!x.isSeparator) = true := by
        have := notBoundaryNotSep x (by simpa using hb)
        simp [this]
      rw [List.takeWhile_cons, List.dropWhile_cons, if_pos hb, if_pos hb, List.filter_cons,
        if_pos hs, List.cons_append, takeWhileFilterAppend xs]
    · have hb2 : (!x.isComponentBoundary) = false := by
        cases hx : (!x.isComponentBoundary)
        · rfl
        · exact absurd hx hb
      rw [List.takeWhile_cons, List.dropWhile_cons, if_neg hb, if_neg hb, List.nil_append]

/-- Flattening the components of a run-headed sequence: the head run and the
recursively-computed remainder give exactly the separator-free tokens. -/
theorem componentsFlattenRun (t : TokenKind) (ts : List TokenKind)
    (hnb : t.isComponentBoundary = false)
    (heq : componentsList (t :: ts)
            = (t :: ts.takeWhile (fun x => !x.isComponentBoundary))
              :: componentsList (ts.dropWhile (fun x => !x.isComponentBoundary)))
    (hrec : (componentsList (ts.dropWhile (fun x => !x.isComponentBoundary))).flatten
            = (ts.dropWhile (fun x => !x.isComponentBoundary)).filter
                (fun x => !x.isSeparator)) :
    (componentsList (t :: ts)).flatten = (t :: ts).filter (fun x => !x.isSeparator) := by
  have hs : (!t.isSeparator) = true := by
    have := notBoundaryNotSep t hnb
    simp [this]
  rw [heq, List.flatten_cons, hrec, List.cons_append, takeWhileFilterAppend ts,
    List.filter_cons, if_pos hs]

/-- The tokens of the components of a sequence are exactly its non-separator
tokens, in order (separators are absorbed, everything else is kept). -/
theorem componentsFlatten :
    ∀ ts : List TokenKind,
      (componentsList ts).flatten = ts.filter (fun x => !x.isSeparator)
  | [] => by simp [componentsList]
  | .Separator :: ts => by
    have h := componentsFlatten ts
    simp [componentsList, List.filter_cons, TokenKind.isSeparator, h]
  | .Wildcard (.Tree r) :: ts => by
    have h := componentsFlatten ts
    simp [componentsList, List.filter_cons, TokenKind.isSeparator, h]
  | .Alternative bs :: ts =>
    componentsFlattenRun _ ts (by simp [TokenKind.isComponentBoundary])
      (by simp [componentsList]) (componentsFlatten _)
  | .Class c :: ts =>
    componentsFlattenRun _ ts (by simp [TokenKind.isComponentBoundary])
      (by simp [componentsList]) (componentsFlatten _)
  | .Literal l :: ts =>
    componentsFlattenRun _ ts (by simp [TokenKind.isComponentBoundary])
      (by simp [componentsList]) (componentsFlatten _)
  | .Repetition rts lower step :: ts =>
    componentsFlattenRun _ ts (by simp [TokenKind.isComponentBoundary])
      (by simp [componentsList]) (componentsFlatten _)
  | .Wildcard .One :: ts =>
    componentsFlattenRun _ ts (by simp [TokenKind.isComponentBoundary])
      (by simp [componentsList]) (componentsFlatten _)
  | .Wildcard (.ZeroOrMore e) :: ts =>
    componentsFlattenRun _ ts (by simp [TokenKind.isComponentBoundary])
      (by simp [componentsList]) (componentsFlatten _)
termination_by ts => ts.length
decreasing_by
  all_goals simp_wf
  all_goals first
    | omega
    | exact Nat.lt_succ_of_le (dropWhileLengthLe _ _)

/-- A run component (non-boundary head plus its boundary-free tail) is
non-empty, separator-free and `Tree`-free. -/
theorem componentsMemRun (t : TokenKind) (ts : List TokenKind)
    (hnb : t.isComponentBoundary = false) :
    (t :: ts.takeWhile (fun x => !x.isComponentBoundary)) ≠ []
    ∧ (∀ x ∈ t :: ts.takeWhile (fun x => !x.isComponentBoundary), x.isSeparator = false)
    ∧ (∀ x ∈ t :: ts.takeWhile (fun x => !x.isComponentBoundary),
        (∃ w, x = TokenKind.Wildcard (.Tree w))
          → t :: ts.takeWhile (fun x => !x.isComponentBoundary) = [x]) := by
  refine ⟨by simp, ?_, ?_⟩
  · intro x hx
    rcases List.mem_cons.mp hx with h | h
    · rw [h]
      exact notBoundaryNotSep t hnb
    · have hpx := List.mem_takeWhile_imp h
      exact notBoundaryNotSep x (by simpa using hpx)
  · intro x hx hex
    rcases hex with ⟨w, hw⟩
    rcases List.mem_cons.mp hx with h | h
    · subst h
      exact absurd hw (notBoundaryNotTree x hnb w)
    · have hpx := List.mem_takeWhile_imp h
      exact absurd hw (notBoundaryNotTree x (by simpa using hpx) w)

/-- Every component is non-empty, contains no separator, and is the singleton
of its token whenever that token is a `Tree` wildcard. -/
theorem componentsMem :
    ∀ ts : List TokenKind, ∀ c ∈ componentsList ts,
      c ≠ [] ∧ (∀ x ∈ c, x.isSeparator = false)
        ∧ (∀ x ∈ c, (∃ w, x = TokenKind.Wildcard (.Tree w)) → c = [x])
  | [], c, hc => absurd hc (by simp [componentsList])
  | .Separator :: ts, c, hc => componentsMem ts c (by simpa [componentsList] using hc)
  | .Wildcard (.Tree r) :: ts, c, hc => by
    simp only [componentsList] at hc
    rcases List.mem_cons.mp hc with h | h
    · subst h
      refine ⟨by simp, ?_, ?_⟩
      · intro x hx
        have hx2 : x = TokenKind.Wildcard (.Tree r) := by simpa using hx
        subst hx2
        rfl
      · intro x hx hex
        have hx2 : x = TokenKind.Wildcard (.Tree r) := by simpa using hx
        subst hx2
        rfl
    · exact componentsMem ts c h
  | .Alternative bs :: ts, c, hc => by
    simp only [componentsList] at hc
    rcases List.mem_cons.mp hc with h | h
    · subst h
      exact componentsMemRun _ ts (by simp [TokenKind.isComponentBoundary])
    · exact componentsMem _ c h
  | .Class cl :: ts, c, hc => by
    simp only [componentsList] at hc
    rcases List.mem_cons.mp hc with h | h
    · subst h
      exact componentsMemRun _ ts (by simp [TokenKind.isComponentBoundary])
    · exact componentsMem _ c h
  | .Literal l :: ts, c, hc => by
    simp only [componentsList] at hc
    rcases List.mem_cons.mp hc with h | h
    · subst h
      exact componentsMemRun _ ts (by simp [TokenKind.isComponentBoundary])
    · exact componentsMem _ c h
  | .Repetition rts lower step :: ts, c, hc => by
    simp only [componentsList] at hc
    rcases List.mem_cons.mp hc with h | h
    · subst h
      exact componentsMemRun _ ts (by simp [TokenKind.isComponentBoundary])
    · exact componentsMem _ c h
  | .Wildcard .One :: ts, c, hc => by
    simp only [componentsList] at hc
    rcases List.mem_cons.mp hc with h | h
    · subst h
      exact componentsMemRun _ ts (by simp [TokenKind.isComponentBoundary])
    · exact componentsMem _ c h
  | .Wildcard (.ZeroOrMore e) :: ts, c, hc => by
    simp only [componentsList] at hc
    rcases List.mem_cons.mp hc with h | h
    · subst h
      exact componentsMemRun _ ts (by simp [TokenKind.isComponentBoundary])
    · exact componentsMem _ c h
termination_by ts _ _ => ts.length
decreasing_by
  all_goals simp_wf
  all_goals first
    | omega
    | exact Nat.lt_succ_of_le (dropWhileLengthLe _ _)

/-- The remainder after dropping a while-prefix is empty or starts with an
element refuting the predicate. -/
theorem dropWhileHead {α : Type} (p : α → Bool) :
    ∀ l : List α, l.dropWhile p = [] ∨ ∃ y ys, l.dropWhile p = y :: ys ∧ p y = false
  | [] => Or.inl rfl
  | x :: xs => by
    rw [List.dropWhile_cons]
    by_cases hp : p x = true
    · rw [if_pos hp]
      exact dropWhileHead p xs
    · rw [if_neg hp]
      right
      exact ⟨x, xs, rfl, by simpa using hp⟩

/-- Modelled from the spec (section 4.3 and the glossary): the component
splitting the spec describes, as a relation. Separator tokens are absorbed
and bound the runs; a `Tree` wildcard is always its own single-token
component; otherwise one component is a maximal run of non-boundary tokens —
contiguity is forced by the `c ++ rest` shape and maximality by the remainder
being empty or starting with a component boundary. -/
inductive ComponentsSpec : List TokenKind → List (List TokenKind) → Prop where
  | nil : ComponentsSpec [] []
  | sep {ts cs} : ComponentsSpec ts cs → ComponentsSpec (TokenKind.Separator :: ts) cs
  | tree {ts cs} (r : Bool) :
      ComponentsSpec ts cs →
      ComponentsSpec (TokenKind.Wildcard (.Tree r) :: ts)
        ([TokenKind.Wildcard (.Tree r)] :: cs)
  | run {c rest cs} :
      c ≠ [] →
      (∀ x ∈ c, x.isComponentBoundary = false) →
      (rest = [] ∨ ∃ y ys, rest = y :: ys ∧ y.isComponentBoundary = true) →
      ComponentsSpec rest cs →
      ComponentsSpec (c ++ rest) (c :: cs)

/-- The run case of `componentsList` satisfies the spec splitting's `run`
rule: the emitted component is the maximal non-boundary prefix. -/
theorem componentsSpecRun (k : TokenKind) (ts : List TokenKind)
    (hnb : k.isComponentBoundary = false)
    (hspec : ComponentsSpec (ts.dropWhile (fun x => !x.isComponentBoundary))
              (componentsList (ts.dropWhile (fun x => !x.isComponentBoundary)))) :
    ComponentsSpec (k :: ts)
      ((k :: ts.takeWhile (fun x => !x.isComponentBoundary))
        :: componentsList (ts.dropWhile (fun x => !x.isComponentBoundary))) := by
  have hsplit : (k :: ts.takeWhile (fun x => !x.isComponentBoundary))
      ++ ts.dropWhile (fun x => !x.isComponentBoundary) = k :: ts := by
    rw [List.cons_append, List.takeWhile_append_dropWhile]
  rw [← hsplit]
  refine ComponentsSpec.run (by simp) ?_ ?_ hspec
  · intro x hx
    rcases List.mem_cons.mp hx with h | h
    · rw [h]
      exact hnb
    · have hpx := List.mem_takeWhile_imp h
      simpa using hpx
  · rcases dropWhileHead (fun x => !x.isComponentBoundary) ts with h | ⟨y, ys, hyy, hf⟩
    · exact Or.inl h
    · exact Or.inr ⟨y, ys, hyy, by simpa using hf⟩

/-- `componentsList` realizes the spec splitting: separators absorbed and
bounding the runs, trees their own components, and every emitted run a
maximal contiguous non-boundary run. -/
theorem componentsSpecHolds : ∀ ts : List TokenKind, ComponentsSpec ts (componentsList ts)
  | [] => by
    simp only [componentsList]
    exact .nil
  | .Separator :: ts => by
    simp only [componentsList]
    exact .sep (componentsSpecHolds ts)
  | .Wildcard (.Tree r) :: ts => by
    simp only [componentsList]
    exact .tree r (componentsSpecHolds ts)
  | .Alternative bs :: ts => by
    simp only [componentsList]
    exact componentsSpecRun _ ts rfl (componentsSpecHolds _)
  | .Class c :: ts => by
    simp only [componentsList]
    exact componentsSpecRun _ ts rfl (componentsSpecHolds _)
  | .Literal l :: ts => by
    simp only [componentsList]
    exact componentsSpecRun _ ts rfl (componentsSpecHolds _)
  | .Repetition rts lower step :: ts => by
    simp only [componentsList]
    exact componentsSpecRun _ ts rfl (componentsSpecHolds _)
  | .Wildcard .One :: ts => by
    simp only [componentsList]
    exact componentsSpecRun _ ts rfl (componentsSpecHolds _)
  | .Wildcard (.ZeroOrMore e) :: ts => by
    simp only [componentsList]
    exact componentsSpecRun _ ts rfl (componentsSpecHolds _)
termination_by ts => ts.length
decreasing_by
  all_goals simp_wf
  all_goals first
    | omega
    | exact Nat.lt_succ_of_le (dropWhileLengthLe _ _)

/-- `unroot` preserves whether a token is a `Tree` wildcard. -/
theorem unrootIsTree (m : TokenKind) : (m.unroot).isTree = m.isTree := by
  cases m with
  | Wildcard w => cases w <;> rfl
  | Alternative bs => rfl
  | Class c => rfl
  | Literal l => rfl
  | Repetition ts lower step => rfl
  | Separator => rfl

/-! Concrete fixtures used by witnesses and counterexamples. -/

/-- A case-sensitive configuration with alphabetic characters cased. -/
def cfgSensitive : Config := ⟨false, fun c => c.isAlpha⟩

/-- A case-insensitive configuration with alphabetic characters cased. -/
def cfgInsensitive : Config := ⟨true, fun c => c.isAlpha⟩

/-- The literal token `foo`. -/
def fooLiteral : Literal := ⟨['f', 'o', 'o'], false⟩

/-- The parsed pattern `/**/foo`: a rooted tree wildcard followed by a
literal. -/
def treeRootedInput : Tokenized :=
  ⟨['/', '*', '*', '/', 'f', 'o', 'o'], [.Wildcard (.Tree true), .Literal fooLiteral]⟩

/-- A sample flat sequence: literal, separator, tree wildcard, literal. -/
def componentsSample : List TokenKind :=
  [.Literal ⟨['a'], false⟩, .Separator, .Wildcard (.Tree false), .Literal ⟨['b'], false⟩]

/-! The claims. -/

/-- C1 (amended): for every token whose kind is `Wildcard::One`, and for every
token whose kind is `Wildcard::ZeroOrMore` (eager or lazy), the unit variance
in the textual-value and byte-size domains is `Variant(Open)` — the source
maps every wildcard, `One` included, to `Variant(Boundedness::Open)`. -/
theorem wildcardUnitVarianceOpen :
    ∀ (cfg : Config) (e : Evaluation),
      unitVariance textDomain cfg (.Wildcard .One) = .Variant .Open
      ∧ unitVariance textDomain cfg (.Wildcard (.ZeroOrMore e)) = .Variant .Open
      ∧ unitVariance sizeDomain cfg (.Wildcard .One) = .Variant .Open
      ∧ unitVariance sizeDomain cfg (.Wildcard (.ZeroOrMore e)) = .Variant .Open :=
  fun _ _ => ⟨rfl, rfl, rfl, rfl⟩

/-- C1 counterexample: the unit variance of `Wildcard::One` in the textual
domain is not `Variant(Closed)` as the claim states (it is `Variant(Open)`). -/
theorem wildcardOneUnitVarianceNotClosed :
    ¬ unitVariance textDomain cfgSensitive (.Wildcard .One) = .Variant .Closed := by
  decide

/-- C2: `Repetition::new` produces no value exactly when the computed finite
upper bound is less than the lower bound or is zero; for every other bound
shape, the unbounded one included, it succeeds. (In this embedding every
variance, depth, breadth, and predicate query is a total function, so no
failure can occur after construction.) -/
theorem repetitionNewSomeIff :
    ∀ (tokens : List TokenKind) (b : RangeBoundsArg),
      (repetitionNew tokens b).isSome = true
        ↔ ¬ ∃ upper, computedUpper b = some upper
            ∧ (upper < computedLower b ∨ upper = 0) := by
  intro tokens b
  rcases hu : computedUpper b with _ | u
  · simp only [repetitionNew, hu, Option.isSome_some, true_iff]
    rintro ⟨upper, hup, -⟩
    exact Option.noConfusion hup
  · simp only [repetitionNew, hu]
    split_ifs with hif
    · simp only [Option.isSome_some, true_iff]
      rintro ⟨upper, hup, hor⟩
      injection hup with he
      omega
    · have hd : u < computedLower b ∨ u = 0 := by omega
      constructor
      · intro habs
        simp at habs
      · intro hne
        exact absurd ⟨u, rfl, hd⟩ hne

/-- C3: when computing a `Repetition`'s unit variance in any value domain
(the textual and byte-size domains in particular), the result equals the
spec-described computation in which, before the conjunctive fold over the
children, every immediately adjacent `Separator` and breadth-Open unit is
coalesced into the open unit. -/
theorem repetitionCoalescesSpec :
    ∀ {T : Type} (d : VDomain T) (cfg : Config) (ts : List TokenKind) (lower : Nat)
      (step : Option Nat),
      unitVariance d cfg (.Repetition ts lower step)
        = repetitionUnitVarianceSpec d cfg ts lower step := by
  intro T d cfg ts lower step
  have key : conjunctiveVariance d ((coalesceSeps (pairVariances d cfg ts)).map Prod.snd)
      = conjunctiveVariance d ((coalesceSpecTokens ts).map (unitVariance d cfg)) := by
    rw [coalesceSepsConj, pairVariancesMapSnd, coalesceSpecConj]
  rcases step with _ | (_ | m)
  · show vadd d.append
      (conjunctiveVariance d ((coalesceSeps (pairVariances d cfg ts)).map Prod.snd))
      (.Variant .Open)
      = vadd d.append
        (conjunctiveVariance d ((coalesceSpecTokens ts).map (unitVariance d cfg)))
        (.Variant .Open)
    rw [key]
  · show Variance.mapInvariance (fun invariance => d.repeatN invariance lower)
      (conjunctiveVariance d ((coalesceSeps (pairVariances d cfg ts)).map Prod.snd))
      = Variance.mapInvariance (fun invariance => d.repeatN invariance lower)
        (conjunctiveVariance d ((coalesceSpecTokens ts).map (unitVariance d cfg)))
    rw [key]
  · show vadd d.append
      (conjunctiveVariance d ((coalesceSeps (pairVariances d cfg ts)).map Prod.snd))
      (.Variant .Open)
      = vadd d.append
        (conjunctiveVariance d ((coalesceSpecTokens ts).map (unitVariance d cfg)))
        (.Variant .Open)
    rw [key]

/-- C4 counterexample: for the exact-count repetition of a tree wildcard
(`step = 0`), the children are depth-open and the body spans a component
boundary, yet `depth()` is `Closed` — refuting the claimed equivalence. -/
theorem repetitionExactDepthCounterexample :
    ¬ ((TokenKind.Repetition [TokenKind.Wildcard (.Tree false)] 1 (some 0)).depth = .Open
        ↔ depthOpenList [TokenKind.Wildcard (.Tree false)] = true
          ∧ hasComponentBoundaryList [TokenKind.Wildcard (.Tree false)] = true) := by
  intro h
  have h1 : depthOpenList [TokenKind.Wildcard (.Tree false)] = true := by
    simp [depthOpenList, depthOpenTok, TokenKind.depth]
  have h2 : hasComponentBoundaryList [TokenKind.Wildcard (.Tree false)] = true := rfl
  have h3 := h.mpr ⟨h1, h2⟩
  have h4 : (TokenKind.Repetition [TokenKind.Wildcard (.Tree false)] 1 (some 0)).depth
      = .Closed := by
    simp [TokenKind.depth]
  rw [h4] at h3
  exact absurd h3 (by decide)

/-- C4 (amended): for every `Repetition` token with `step = 0` (exact-count
repetition) the computed upper bound is present, so `depth()` is always
`Closed`, regardless of the children. -/
theorem repetitionExactDepthClosed :
    ∀ (ts : List TokenKind) (lower : Nat),
      (TokenKind.Repetition ts lower (some 0)).depth = .Closed := by
  intro ts lower
  simp [TokenKind.depth]

/-- C5: in the byte-size domain an archetype's unit variance is either
`Invariant 4` — the pessimistic four-size-unit worst case, regardless of the
character's actual encoded length — or `Variant(Closed)` carrying no size. -/
theorem archetypeSizeFourOrVariantClosed :
    ∀ (cfg : Config) (a : Archetype),
      archetypeUnitVariance sizeDomain cfg a = .Invariant 4
        ∨ archetypeUnitVariance sizeDomain cfg a = .Variant .Closed := by
  intro cfg a
  cases a with
  | Character c =>
    by_cases hp : cfg.pathsAreCaseInsensitive
    · right
      simp [archetypeUnitVariance, Archetype.domainVariance, hp, Variance.mapInvariance]
    · left
      simp [archetypeUnitVariance, Archetype.domainVariance, hp, Variance.mapInvariance,
        sizeDomain]
  | Range x y =>
    by_cases hr : x ≠ y ∨ cfg.pathsAreCaseInsensitive
    · right
      simp [archetypeUnitVariance, Archetype.domainVariance, hr, Variance.mapInvariance]
    · left
      simp [archetypeUnitVariance, Archetype.domainVariance, hr, Variance.mapInvariance,
        sizeDomain]

/-- C6: a `Literal`'s unit variance is `Invariant` of its text (textual
domain), respectively of its byte length (size domain), exactly when its case
sensitivity agrees with the active policy or its text has no cased character;
otherwise it is `Variant(Closed)`. -/
theorem literalUnitVarianceCharacterization :
    ∀ (cfg : Config) (l : Literal),
      unitVariance textDomain cfg (.Literal l)
        = (if (cfg.pathsAreCaseInsensitive == l.isCaseInsensitive) || !hasCasing cfg l.text
           then .Invariant l.text
           else .Variant .Closed)
      ∧ unitVariance sizeDomain cfg (.Literal l)
        = (if (cfg.pathsAreCaseInsensitive == l.isCaseInsensitive) || !hasCasing cfg l.text
           then .Invariant (byteLen l.text)
           else .Variant .Closed) := by
  intro cfg l
  have hb : l.hasVariantCasing cfg
      = !((cfg.pathsAreCaseInsensitive == l.isCaseInsensitive) || !hasCasing cfg l.text) := by
    simp only [Literal.hasVariantCasing]
    cases hp : cfg.pathsAreCaseInsensitive <;> cases hci : l.isCaseInsensitive <;>
      cases hcs : hasCasing cfg l.text <;> rfl
  constructor
  · show literalUnitVariance textDomain cfg l = _
    by_cases hc : (cfg.pathsAreCaseInsensitive == l.isCaseInsensitive) || !hasCasing cfg l.text
    · have hv : l.hasVariantCasing cfg = false := by rw [hb, hc]; rfl
      rw [if_pos hc]
      simp [literalUnitVariance, Literal.domainVariance, hv, Variance.mapInvariance, textDomain]
    · have hc2 : ((cfg.pathsAreCaseInsensitive == l.isCaseInsensitive)
          || !hasCasing cfg l.text) = false := by
        simpa using hc
      have hv : l.hasVariantCasing cfg = true := by rw [hb, hc2]; rfl
      rw [if_neg hc]
      simp [literalUnitVariance, Literal.domainVariance, hv, Variance.mapInvariance]
  · show literalUnitVariance sizeDomain cfg l = _
    by_cases hc : (cfg.pathsAreCaseInsensitive == l.isCaseInsensitive) || !hasCasing cfg l.text
    · have hv : l.hasVariantCasing cfg = false := by rw [hb, hc]; rfl
      rw [if_pos hc]
      simp [literalUnitVariance, Literal.domainVariance, hv, Variance.mapInvariance, sizeDomain]
    · have hc2 : ((cfg.pathsAreCaseInsensitive == l.isCaseInsensitive)
          || !hasCasing cfg l.text) = false := by
        simpa using hc
      have hv : l.hasVariantCasing cfg = true := by rw [hb, hc2]; rfl
      rw [if_neg hc]
      simp [literalUnitVariance, Literal.domainVariance, hv, Variance.mapInvariance]

/-- C7: after `Tokenized::partition`, the first token of the remainder is
never a rooted `Tree` wildcard (a leading `Tree` wildcard has its root flag
cleared), and when the first token is of any other kind it is exactly the
unchanged head of the drained sequence. -/
theorem partitionUnrootsLeadingTree :
    ∀ (cfg : Config) (t : Tokenized) (k : TokenKind) (ks : List TokenKind),
      ((t.partition cfg).2).tokens = k :: ks →
        isRootedTree k = false
        ∧ (k.isTree = true
            ∨ t.tokens.drop (invariantPrefixUpperBound cfg t.tokens) = k :: ks) := by
  intro cfg t k ks h
  cases hd : t.tokens.drop (invariantPrefixUpperBound cfg t.tokens) with
  | nil =>
    have hnil : ((t.partition cfg).2).tokens = [] := by
      simp [Tokenized.partition, hd]
    rw [h] at hnil
    exact absurd hnil (by simp)
  | cons m ms =>
    have htok : ((t.partition cfg).2).tokens = m.unroot :: ms := by
      simp [Tokenized.partition, hd]
    have hcons : k :: ks = m.unroot :: ms := h.symm.trans htok
    injection hcons with hk hks
    subst hk
    refine ⟨unrootNotRooted m, ?_⟩
    by_cases hm : m.isTree = true
    · left
      rw [unrootIsTree]
      exact hm
    · right
      have hm2 : m.isTree = false := by simpa using hm
      rw [unrootNonTree m hm2, hks]

/-- C7 witness: partitioning the pattern `/**/foo` leaves a leading unrooted
`Tree` wildcard. -/
theorem partitionUnrootsLeadingTreeWitness :
    isRootedTree (TokenKind.Wildcard (.Tree false)) = false
    ∧ ((TokenKind.Wildcard (.Tree false)).isTree = true
        ∨ treeRootedInput.tokens.drop
            (invariantPrefixUpperBound cfgSensitive treeRootedInput.tokens)
          = [TokenKind.Wildcard (.Tree false), TokenKind.Literal fooLiteral]) :=
  partitionUnrootsLeadingTree cfgSensitive treeRootedInput
    (TokenKind.Wildcard (.Tree false)) [TokenKind.Literal fooLiteral] rfl

/-- C8: `components` realizes the spec splitting `ComponentsSpec` — each
emitted run is a maximal contiguous run bounded by component-boundary tokens
(so no splitting without a boundary at the junction and no merging across a
separator) — and moreover the components flatten to exactly the non-separator
tokens in order (separators are absorbed and never emitted), every component
is non-empty (so leading separators never yield empty components) and
separator-free, and any component containing a `Tree` wildcard is that single
token. -/
theorem componentsCharacterization :
    ∀ ts : List TokenKind,
      ComponentsSpec ts (componentsList ts)
      ∧ (componentsList ts).flatten = ts.filter (fun x => !x.isSeparator)
      ∧ ∀ c ∈ componentsList ts,
          c ≠ [] ∧ (∀ x ∈ c, x.isSeparator = false)
            ∧ (∀ x ∈ c, (∃ w, x = TokenKind.Wildcard (.Tree w)) → c = [x]) :=
  fun ts => ⟨componentsSpecHolds ts, componentsFlatten ts, componentsMem ts⟩

/-- C8 witness: on the sample sequence the components satisfy the spec
splitting, flatten to the separator-free tokens, and the tree-wildcard
component is the non-empty, separator-free singleton of its token. -/
theorem componentsCharacterizationWitness :
    ComponentsSpec componentsSample (componentsList componentsSample)
    ∧ (componentsList componentsSample).flatten
        = componentsSample.filter (fun x => !x.isSeparator)
    ∧ [TokenKind.Wildcard (.Tree false)] ≠ ([] : List TokenKind)
    ∧ (TokenKind.Wildcard (.Tree false)).isSeparator = false
    ∧ [TokenKind.Wildcard (.Tree false)] = [TokenKind.Wildcard (.Tree false)] := by
  have h := componentsCharacterization componentsSample
  have hmem : [TokenKind.Wildcard (.Tree false)] ∈ componentsList componentsSample := by
    simp [componentsList, componentsSample, TokenKind.isComponentBoundary]
  have hpart := h.2.2 _ hmem
  exact ⟨h.1, h.2.1, hpart.1, hpart.2.1 _ (by simp), hpart.2.2 _ (by simp) ⟨false, rfl⟩⟩

/-- C9: under a case-insensitive policy, a `Character` archetype of a
non-negated class is `Variant(Closed)` even for an uncased character, while a
literal of that same character is `Invariant` under the same policy. -/
theorem caseInsensitiveClassVsLiteral :
    ∀ (cfg : Config), cfg.pathsAreCaseInsensitive = true →
      ∀ (c : Char) (ci : Bool), cfg.charHasCasing c = false →
        archetypeUnitVariance textDomain cfg (.Character c) = .Variant .Closed
        ∧ unitVariance textDomain cfg (.Class ⟨false, [.Character c]⟩) = .Variant .Closed
        ∧ unitVariance textDomain cfg (.Literal ⟨[c], ci⟩) = .Invariant [c] := by
  intro cfg hp c ci hc
  refine ⟨?_, ?_, ?_⟩
  · simp [archetypeUnitVariance, Archetype.domainVariance, hp, Variance.mapInvariance]
  · show classUnitVariance textDomain cfg ⟨false, [.Character c]⟩ = _
    simp [classUnitVariance, disjunctiveVariance, archetypeUnitVariance,
      Archetype.domainVariance, hp, Variance.mapInvariance]
  · show literalUnitVariance textDomain cfg ⟨[c], ci⟩ = _
    have hcas : hasCasing cfg [c] = false := by simp [hasCasing, hc]
    have hv : Literal.hasVariantCasing cfg ⟨[c], ci⟩ = false := by
      simp [Literal.hasVariantCasing, hcas]
    simp [literalUnitVariance, Literal.domainVariance, hv, Variance.mapInvariance, textDomain]

/-- C9 witness: under the case-insensitive configuration, the digit class
`[5]` is `Variant(Closed)` while the literal `5` is `Invariant`. -/
theorem caseInsensitiveClassVsLiteralWitness :
    cfgInsensitive.pathsAreCaseInsensitive = true
    ∧ cfgInsensitive.charHasCasing '5' = false
    ∧ (archetypeUnitVariance textDomain cfgInsensitive (.Character '5') = .Variant .Closed
        ∧ unitVariance textDomain cfgInsensitive (.Class ⟨false, [.Character '5']⟩)
            = .Variant .Closed
        ∧ unitVariance textDomain cfgInsensitive (.Literal ⟨['5'], false⟩)
            = .Invariant ['5']) :=
  ⟨rfl, by decide, caseInsensitiveClassVsLiteral cfgInsensitive rfl '5' false (by decide)⟩

/-- C10: `Tokenized::partition` returns a remainder whose expression string is
exactly the input's expression string; only the token sequence changes. -/
theorem partitionPreservesExpression :
    ∀ (cfg : Config) (t : Tokenized), ((t.partition cfg).2).expression = t.expression := by
  intro cfg t
  rfl

end Wax
